import Mathlib

/-!
# A verification model of the `lexicon` string interner

This file gives a shallow embedding of the `lexicon` crate (`src/lib.rs`):
an arena-backed string interner.  Rust's `&str` values are modelled as Lean
`String`s (content, byte-for-byte); byte lengths are `String.utf8ByteSize`,
matching Rust's `str::len`.  The `HashMap<&'static str, Sym>` is modelled as
an association list queried by content equality (keys are unique on every
code path, so any representation with the same `get` semantics is faithful).
`u32` values are modelled as `Nat` with an explicit `% 2 ^ 32` at the one
place a `usize` is cast to `u32` (`Sym::new(self.map.len() as u32)`).
Vector indexing that can panic (`self.vec[i]`) is modelled with `Option`.
-/

set_option maxRecDepth 100000

namespace LexiconModel

/-- Model of `usize::next_power_of_two` (the smallest power of two that is
greater than or equal to `n`, and `1` for `n = 0`), written with explicit
fuel so that it is structurally recursive.  `fuel = n` always suffices,
and the characterization theorems below (`nextPow2_isPow2`, `le_nextPow2`,
`nextPow2_lt_double`) pin the value down uniquely. -/
def npowGo (n : Nat) : Nat → Nat → Nat
  | 0, power => power
  | fuel + 1, power => if n ≤ power then power else npowGo n fuel (power * 2)

/-- `nextPow2 n` is the smallest power of two `≥ n` (see `npowGo`). -/
def nextPow2 (n : Nat) : Nat := npowGo n n 1

/-- Model of the identifier type `Sym(u32)`.  The payload is a `Nat`; the
single construction site in `intern` truncates modulo `2 ^ 32`, modelling
the `as u32` cast in the source. -/
structure Sym where
  val : Nat
deriving DecidableEq, Repr

/-- `Sym::new`. -/
def Sym.new (n : Nat) : Sym := ⟨n⟩

/-- `Sym::get`. -/
def Sym.get (s : Sym) : Nat := s.val

/-- Model of the interner state

```rust
pub struct Lexicon {
    map: HashMap<&'static str, Sym>,
    vec: Vec<&'static str>,
    buf: String,
    all: Vec<String>,
}
```

The active buffer `buf` is modelled by its content together with its
capacity `bufCap` in bytes (Rust tracks the capacity inside `String`). -/
structure Lexicon where
  map : List (String × Sym)
  vec : List String
  buf : String
  bufCap : Nat
  all : List String
deriving DecidableEq, Repr

/-- The derived `Default`: all collections empty, `String::new()` has
capacity `0`. -/
def Lexicon.default : Lexicon :=
  { map := [], vec := [], buf := "", bufCap := 0, all := [] }

/-- `Lexicon::with_capacity`: rounds the hint up with `next_power_of_two`
and uses it as the capacity of the (still empty) active buffer. -/
def Lexicon.with_capacity (capacity : Nat) : Lexicon :=
  { map := [], vec := [], buf := "", bufCap := nextPow2 capacity, all := [] }

/-- `HashMap::get` on the association-list model: the value of the first
(in a reachable state: the only) entry whose key equals `s`. -/
def mapGet (m : List (String × Sym)) (s : String) : Option Sym :=
  (m.find? (fun p => p.1 == s)).map Prod.snd

/-- `Lexicon::alloc`:

```rust
let cap = self.buf.capacity();
if cap < self.buf.len() + string.len() {
    let new_cap = (cap.max(string.len()) + 1).next_power_of_two();
    let new_buf = String::with_capacity(new_cap);
    let old_buf = mem::replace(&mut self.buf, new_buf);
    self.all.push(old_buf);
}
let interned = { let start = self.buf.len(); self.buf.push_str(string); &self.buf[start..] };
```

The returned `&'static str` view is modelled by its content, which is
exactly `string` (the slice `&self.buf[start..]` right after the push). -/
def Lexicon.alloc (lx : Lexicon) (string : String) : Lexicon × String :=
  let cap := lx.bufCap
  let lx' :=
    if cap < lx.buf.utf8ByteSize + string.utf8ByteSize then
      { lx with
        buf := ""
        bufCap := nextPow2 (max cap string.utf8ByteSize + 1)
        all := lx.all ++ [lx.buf] }
    else lx
  ({ lx' with buf := lx'.buf ++ string }, string)

/-- `Lexicon::intern`:

```rust
if let Some(&id) = self.map.get(string) { return id; }
let string = unsafe { self.alloc(string) };
let sym = Sym::new(self.map.len() as u32);
self.map.insert(string, sym);
self.vec.push(string);
sym
```

The `as u32` cast is the explicit `% 2 ^ 32`. -/
def Lexicon.intern (lx : Lexicon) (string : String) : Lexicon × Sym :=
  match mapGet lx.map string with
  | some id => (lx, id)
  | none =>
    let a := lx.alloc string
    let sym := Sym.new (a.1.map.length % 2 ^ 32)
    ({ a.1 with map := a.1.map ++ [(a.2, sym)], vec := a.1.vec ++ [a.2] }, sym)

/-- `Lexicon::lookup`, i.e. `self.vec[sym.get() as usize]`.  The
bounds-checked (panicking) index is modelled with `Option`: `none` is the
defined out-of-bounds panic. -/
def Lexicon.lookup (lx : Lexicon) (sym : Sym) : Option String :=
  lx.vec.get? sym.get

/-- Interning a whole list of strings in order, collecting the returned
identifiers (pure iteration of `Lexicon::intern`). -/
def internAll (lx : Lexicon) : List String → Lexicon × List Sym
  | [] => (lx, [])
  | s :: rest =>
    let a := lx.intern s
    let b := internAll a.1 rest
    (b.1, a.2 :: b.2)

/-- `init_with_alphabet` interns the 52 characters `'a'..='z'` then
`'A'..='Z'`, in order, into a default-constructed `Lexicon`. -/
def alphabetChars : List Char :=
  ((List.range 26).map (fun i => Char.ofNat (97 + i))) ++
    ((List.range 26).map (fun i => Char.ofNat (65 + i)))

/-- `init_with_alphabet`. -/
def init_with_alphabet : Lexicon :=
  alphabetChars.foldl (fun lx c => (lx.intern c.toString).1) Lexicon.default

/-- The states reachable from a fresh interner (default- or
capacity-constructed) by `intern` calls. -/
inductive Reachable : Lexicon → Prop
  | base : Reachable Lexicon.default
  | cap (c : Nat) : Reachable (Lexicon.with_capacity c)
  | step (lx : Lexicon) (s : String) : Reachable lx → Reachable (lx.intern s).1

/-! ## Basic lemmas about the model -/

theorem npowGo_pow2 (n : Nat) : ∀ (fuel k : Nat), ∃ m, npowGo n fuel (2 ^ k) = 2 ^ m
  | 0, k => ⟨k, rfl⟩
  | fuel + 1, k => by
    by_cases h : n ≤ 2 ^ k
    · exact ⟨k, by simp [npowGo, h]⟩
    · obtain ⟨m, hm⟩ := npowGo_pow2 n fuel (k + 1)
      exact ⟨m, by simp only [npowGo, h, if_false]; rw [← pow_succ]; exact hm⟩

theorem le_npowGo (n : Nat) :
    ∀ (fuel p : Nat), n ≤ p * 2 ^ fuel → n ≤ npowGo n fuel p
  | 0, p, h => by simpa using h
  | fuel + 1, p, h => by
    by_cases hp : n ≤ p
    · simpa [npowGo, hp] using hp
    · simp only [npowGo, hp, if_false]
      apply le_npowGo n fuel (p * 2)
      rw [pow_succ] at h
      calc n ≤ p * (2 ^ fuel * 2) := h
        _ = p * 2 * 2 ^ fuel := by ring

theorem npowGo_lt (n : Nat) (hn : 0 < n) :
    ∀ (fuel p : Nat), p < 2 * n → npowGo n fuel p < 2 * n
  | 0, p, h => h
  | fuel + 1, p, h => by
    by_cases hp : n ≤ p
    · simpa [npowGo, hp] using h
    · simp only [npowGo, hp, if_false]
      exact npowGo_lt n hn fuel (p * 2) (by omega)

/-- `nextPow2` returns a power of two. -/
theorem nextPow2_isPow2 (n : Nat) : ∃ m, nextPow2 n = 2 ^ m := by
  simpa using npowGo_pow2 n n 0

/-- `nextPow2 n` is at least `n`. -/
theorem le_nextPow2 (n : Nat) : n ≤ nextPow2 n :=
  le_npowGo n n 1 (by simpa using Nat.le_of_lt (Nat.lt_two_pow n))

/-- `nextPow2 n` is below `2 * n` (for positive `n`), hence it is the
*smallest* power of two `≥ n`: any two powers of two in `[n, 2*n)` coincide. -/
theorem nextPow2_lt_double (n : Nat) (hn : 0 < n) : nextPow2 n < 2 * n :=
  npowGo_lt n hn n 1 (by omega)

theorem utf8ByteSize_append (a b : String) :
    (a ++ b).utf8ByteSize = a.utf8ByteSize + b.utf8ByteSize := by
  cases a with
  | mk la =>
    cases b with
    | mk lb =>
      show (String.mk (la ++ lb)).utf8ByteSize = _
      simp [String.utf8ByteSize_mk]

theorem empty_append_str (s : String) : "" ++ s = s := by
  cases s; rfl

/-- Explicit description of `Lexicon.alloc`. -/
theorem alloc_eq (lx : Lexicon) (s : String) :
    lx.alloc s =
      (if lx.bufCap < lx.buf.utf8ByteSize + s.utf8ByteSize then
        { map := lx.map, vec := lx.vec, buf := "" ++ s,
          bufCap := nextPow2 (max lx.bufCap s.utf8ByteSize + 1),
          all := lx.all ++ [lx.buf] }
      else { lx with buf := lx.buf ++ s }, s) := by
  simp only [Lexicon.alloc]
  split <;> rfl

theorem alloc_snd (lx : Lexicon) (s : String) : (lx.alloc s).2 = s := by
  rw [alloc_eq]

theorem alloc_map (lx : Lexicon) (s : String) : (lx.alloc s).1.map = lx.map := by
  rw [alloc_eq]; split <;> rfl

theorem alloc_vec (lx : Lexicon) (s : String) : (lx.alloc s).1.vec = lx.vec := by
  rw [alloc_eq]; split <;> rfl

theorem alloc_buf_le (lx : Lexicon) (s : String)
    (h : lx.buf.utf8ByteSize ≤ lx.bufCap) :
    (lx.alloc s).1.buf.utf8ByteSize ≤ (lx.alloc s).1.bufCap := by
  rw [alloc_eq]
  split
  · next hlt =>
    simp only [empty_append_str]
    have h1 : max lx.bufCap s.utf8ByteSize + 1 ≤
        nextPow2 (max lx.bufCap s.utf8ByteSize + 1) := le_nextPow2 _
    omega
  · next hge =>
    simp only [utf8ByteSize_append]
    omega

theorem intern_hit {lx : Lexicon} {s : String} {id : Sym}
    (h : mapGet lx.map s = some id) : lx.intern s = (lx, id) := by
  simp [Lexicon.intern, h]

theorem intern_miss {lx : Lexicon} {s : String} (h : mapGet lx.map s = none) :
    lx.intern s =
      ({ (lx.alloc s).1 with
          map := lx.map ++ [(s, Sym.new (lx.map.length % 2 ^ 32))],
          vec := lx.vec ++ [s] },
        Sym.new (lx.map.length % 2 ^ 32)) := by
  simp [Lexicon.intern, h, alloc_map, alloc_vec, alloc_snd]

/-! ## Index of a string in the reverse table -/

/-- Position of the first occurrence of `s` in a list of strings. -/
def vecIdx (s : String) : List String → Nat
  | [] => 0
  | t :: rest => if t = s then 0 else vecIdx s rest + 1

theorem vecIdx_lt_length {s : String} : ∀ {v : List String}, s ∈ v → vecIdx s v < v.length
  | t :: rest, h => by
    by_cases ht : t = s
    · simp [vecIdx, ht]
    · have : s ∈ rest := by
        cases h with
        | head => exact absurd rfl ht
        | tail _ h => exact h
      simpa [vecIdx, ht] using vecIdx_lt_length this

theorem get?_vecIdx {s : String} : ∀ {v : List String}, s ∈ v → v.get? (vecIdx s v) = some s
  | t :: rest, h => by
    by_cases ht : t = s
    · simp [vecIdx, ht]
    · have : s ∈ rest := by
        cases h with
        | head => exact absurd rfl ht
        | tail _ h => exact h
      simpa [vecIdx, ht] using get?_vecIdx this

theorem vecIdx_append_left {s : String} :
    ∀ {v : List String} (w : List String), s ∈ v → vecIdx s (v ++ w) = vecIdx s v
  | t :: rest, w, h => by
    by_cases ht : t = s
    · simp [vecIdx, ht]
    · have : s ∈ rest := by
        cases h with
        | head => exact absurd rfl ht
        | tail _ h => exact h
      simp [vecIdx, ht, vecIdx_append_left w this]

theorem vecIdx_append_self {s : String} :
    ∀ {v : List String}, s ∉ v → vecIdx s (v ++ [s]) = v.length
  | [], _ => by simp [vecIdx]
  | t :: rest, h => by
    have ht : t ≠ s := fun e => h (e ▸ List.mem_cons_self t rest)
    have hr : s ∉ rest := fun e => h (List.mem_cons_of_mem t e)
    simp [vecIdx, ht, vecIdx_append_self hr]

/-! ## The dedup map of a reachable state -/

/-- The dedup map determined by the reverse table: entry `i` of the table
maps to identifier `i % 2 ^ 32` (`k` is the index of the first entry). -/
def tabFrom (k : Nat) : List String → List (String × Sym)
  | [] => []
  | s :: rest => (s, Sym.new (k % 2 ^ 32)) :: tabFrom (k + 1) rest

theorem tabFrom_length (k : Nat) : ∀ (v : List String), (tabFrom k v).length = v.length
  | [] => rfl
  | s :: rest => by simp [tabFrom, tabFrom_length (k + 1) rest]

theorem tabFrom_append (s : String) :
    ∀ (k : Nat) (v : List String),
      tabFrom k (v ++ [s]) = tabFrom k v ++ [(s, Sym.new ((k + v.length) % 2 ^ 32))]
  | k, [] => by simp [tabFrom]
  | k, t :: rest => by
    have ih := tabFrom_append s (k + 1) rest
    have hk : k + 1 + rest.length = k + (rest.length + 1) := by omega
    simp only [List.cons_append, tabFrom, List.append_eq, ih, hk, List.length_cons]

theorem mapGet_tabFrom (s : String) :
    ∀ (k : Nat) (v : List String),
      mapGet (tabFrom k v) s =
        if s ∈ v then some (Sym.new ((k + vecIdx s v) % 2 ^ 32)) else none
  | k, [] => by simp [tabFrom, mapGet]
  | k, t :: rest => by
    by_cases ht : t = s
    · subst ht
      simp [tabFrom, mapGet, vecIdx]
    · have hts : (t == s) = false := by simpa using ht
      have hst : s ∈ t :: rest ↔ s ∈ rest := by
        constructor
        · intro h
          cases h with
          | head => exact absurd rfl ht
          | tail _ h => exact h
        · exact List.mem_cons_of_mem t
      have ih := mapGet_tabFrom s (k + 1) rest
      simp only [tabFrom, mapGet, List.find?_cons, hts] at *
      rw [ih]
      by_cases hm : s ∈ rest
      · have : k + 1 + vecIdx s rest = k + (vecIdx s rest + 1) := by omega
        simp [hm, hst, vecIdx, ht, this]
      · simp [hm, hst]

/-! ## The invariant of reachable states -/

/-- Well-formedness: the dedup map is exactly the table induced by the
reverse table, the reverse table has no duplicates, and the active buffer
fits in its capacity. -/
structure Wf (lx : Lexicon) : Prop where
  map_eq : lx.map = tabFrom 0 lx.vec
  nodup : lx.vec.Nodup
  buf_le : lx.buf.utf8ByteSize ≤ lx.bufCap

theorem wf_default : Wf Lexicon.default :=
  ⟨rfl, List.nodup_nil, Nat.le_refl 0⟩

theorem wf_with_capacity (c : Nat) : Wf (Lexicon.with_capacity c) :=
  ⟨rfl, List.nodup_nil, Nat.zero_le _⟩

theorem mapGet_wf {lx : Lexicon} (hwf : Wf lx) (s : String) :
    mapGet lx.map s =
      if s ∈ lx.vec then some (Sym.new (vecIdx s lx.vec % 2 ^ 32)) else none := by
  rw [hwf.map_eq, mapGet_tabFrom]
  simp

/-- The key characterization of one `intern` step from a well-formed state:
well-formedness is preserved, the reverse table gains the string exactly
when it was absent, and the returned identifier is the string's position in
the (new) reverse table, reduced `mod 2 ^ 32`. -/
theorem intern_wf {lx : Lexicon} (s : String) (hwf : Wf lx) :
    Wf (lx.intern s).1 ∧
      (lx.intern s).1.vec = (if s ∈ lx.vec then lx.vec else lx.vec ++ [s]) ∧
      (lx.intern s).2 = Sym.new (vecIdx s (lx.intern s).1.vec % 2 ^ 32) := by
  by_cases hm : s ∈ lx.vec
  · have h := mapGet_wf hwf s
    rw [if_pos hm] at h
    rw [intern_hit h]
    exact ⟨hwf, by simp [hm], rfl⟩
  · have h := mapGet_wf hwf s
    rw [if_neg hm] at h
    rw [intern_miss h]
    have hlen : lx.map.length = lx.vec.length := by
      rw [hwf.map_eq, tabFrom_length]
    refine ⟨⟨?_, ?_, ?_⟩, by simp [hm], ?_⟩
    · show lx.map ++ _ = tabFrom 0 (lx.vec ++ [s])
      rw [tabFrom_append, hwf.map_eq, tabFrom_length]
      simp
    · show (lx.vec ++ [s]).Nodup
      rw [List.nodup_append]
      exact ⟨hwf.nodup, List.nodup_singleton s, by
        intro x hx hx'
        simp at hx'
        exact hm (hx' ▸ hx)⟩
    · show (lx.alloc s).1.buf.utf8ByteSize ≤ (lx.alloc s).1.bufCap
      exact alloc_buf_le lx s hwf.buf_le
    · show Sym.new (lx.map.length % 2 ^ 32) =
        Sym.new (vecIdx s (lx.vec ++ [s]) % 2 ^ 32)
      rw [vecIdx_append_self hm, hlen]

/-- Every reachable state is well-formed. -/
theorem reachable_wf {lx : Lexicon} (h : Reachable lx) : Wf lx := by
  induction h with
  | base => exact wf_default
  | cap c => exact wf_with_capacity c
  | step lx s _ ih => exact (intern_wf s ih).1

theorem mapGet_append_right {s : String} (id : Sym) :
    ∀ {m : List (String × Sym)}, mapGet m s = none → mapGet (m ++ [(s, id)]) s = some id
  | [], _ => by simp [mapGet]
  | p :: m, h => by
    have hp : (p.1 == s) = false := by
      by_contra hc
      simp only [Bool.not_eq_false] at hc
      simp [mapGet, List.find?_cons, hc] at h
    have hm : mapGet m s = none := by
      simpa [mapGet, List.find?_cons, hp] using h
    simpa [mapGet, List.find?_cons, hp] using mapGet_append_right id hm

/-- Claim C2: interning the same string twice in succession returns the
same identifier both times, and the second call leaves the interner state
(dedup map, reverse table, buffers) completely unchanged. -/
theorem c2_intern_idempotent (lx : Lexicon) (s : String) :
    ((lx.intern s).1.intern s).2 = (lx.intern s).2 ∧
      ((lx.intern s).1.intern s).1 = (lx.intern s).1 := by
  cases hm : mapGet lx.map s with
  | some id =>
    rw [intern_hit hm]
    rw [intern_hit hm]
    exact ⟨rfl, rfl⟩
  | none =>
    rw [intern_miss hm]
    have hget : mapGet (lx.map ++ [(s, Sym.new (lx.map.length % 2 ^ 32))]) s =
        some (Sym.new (lx.map.length % 2 ^ 32)) := mapGet_append_right _ hm
    rw [intern_hit hget]
    exact ⟨rfl, rfl⟩

theorem intern_vec_get? (lx : Lexicon) (s : String) {n : Nat} {v : String}
    (h : lx.vec.get? n = some v) : (lx.intern s).1.vec.get? n = some v := by
  cases hm : mapGet lx.map s with
  | some id => rw [intern_hit hm]; exact h
  | none =>
    rw [intern_miss hm]
    show (lx.vec ++ [s]).get? n = some v
    obtain ⟨hlt, -⟩ := List.get?_eq_some.1 h
    rw [List.get?_append hlt]
    exact h

theorem internAll_lookup_stable :
    ∀ (ss : List String) (lx : Lexicon) (sym : Sym) (v : String),
      lx.lookup sym = some v → ((internAll lx ss).1).lookup sym = some v
  | [], lx, sym, v, h => h
  | s :: rest, lx, sym, v, h =>
    internAll_lookup_stable rest (lx.intern s).1 sym v (intern_vec_get? lx s h)

/-- Claim C6: interning any further sequence of strings (including ones
that force arena buffer growth) never changes the result of `lookup` for
an identifier that already resolves to a string. -/
theorem c6_lookup_stable (lx : Lexicon) (ss : List String) (sym : Sym) (v : String)
    (h : lx.lookup sym = some v) : ((internAll lx ss).1).lookup sym = some v :=
  internAll_lookup_stable ss lx sym v h

theorem c6_lookup_stable_witness :
    ((Lexicon.default.intern "a").1.lookup (Sym.new 0) = some "a") ∧
      ((internAll (Lexicon.default.intern "a").1 ["b", "c", "d"]).1.lookup (Sym.new 0)
        = some "a") :=
  ⟨by decide, c6_lookup_stable (Lexicon.default.intern "a").1 ["b", "c", "d"]
    (Sym.new 0) "a" (by decide)⟩

theorem intern_congr (s : String) {lx₁ lx₂ : Lexicon}
    (hm : lx₁.map = lx₂.map) (hv : lx₁.vec = lx₂.vec) :
    (lx₁.intern s).2 = (lx₂.intern s).2 ∧
      (lx₁.intern s).1.map = (lx₂.intern s).1.map ∧
      (lx₁.intern s).1.vec = (lx₂.intern s).1.vec := by
  cases hg : mapGet lx₂.map s with
  | some id =>
    rw [intern_hit hg, intern_hit (hm ▸ hg : mapGet lx₁.map s = some id)]
    exact ⟨rfl, hm, hv⟩
  | none =>
    rw [intern_miss hg, intern_miss (hm ▸ hg : mapGet lx₁.map s = none)]
    refine ⟨by rw [hm], by simp [alloc_map, hm], by simp [alloc_vec, hv]⟩

theorem internAll_congr :
    ∀ (ss : List String) {lx₁ lx₂ : Lexicon}, lx₁.map = lx₂.map → lx₁.vec = lx₂.vec →
      (internAll lx₁ ss).2 = (internAll lx₂ ss).2 ∧
        (internAll lx₁ ss).1.map = (internAll lx₂ ss).1.map ∧
        (internAll lx₁ ss).1.vec = (internAll lx₂ ss).1.vec
  | [], _, _, hm, hv => ⟨rfl, hm, hv⟩
  | s :: rest, lx₁, lx₂, hm, hv => by
    obtain ⟨h2, hm', hv'⟩ := intern_congr s hm hv
    obtain ⟨ih2, ihm, ihv⟩ := internAll_congr rest hm' hv'
    exact ⟨by simp only [internAll, h2, ih2], by simp only [internAll, ihm],
      by simp only [internAll, ihv]⟩

/-- Claim C9: the initial-capacity hint is not correctness-affecting: an
interner created with `with_capacity c` returns exactly the same
identifiers on any sequence of `intern` calls, and the same `lookup`
results afterwards, as one created with the default constructor. -/
theorem c9_capacity_hint_pure (c : Nat) (ss : List String) :
    (internAll (Lexicon.with_capacity c) ss).2 = (internAll Lexicon.default ss).2 ∧
      ∀ sym : Sym, ((internAll (Lexicon.with_capacity c) ss).1).lookup sym =
        ((internAll Lexicon.default ss).1).lookup sym := by
  obtain ⟨h2, -, hv⟩ :=
    @internAll_congr ss (Lexicon.with_capacity c) Lexicon.default rfl rfl
  exact ⟨h2, fun sym => by simp only [Lexicon.lookup, hv]⟩

/-- Claim C10: `lookup` hits the bounds-checked vector index (modelled by
`none`, the defined panic) exactly when the identifier's numeric value is
at least the number of entries of the reverse table, and resolves to a
stored string (never panics) exactly when it is below that count. -/
theorem c10_lookup_bounds (lx : Lexicon) (sym : Sym) :
    (lx.lookup sym = none ↔ lx.vec.length ≤ sym.get) ∧
      ((∃ v, lx.lookup sym = some v) ↔ sym.get < lx.vec.length) := by
  constructor
  · simpa [Lexicon.lookup] using List.get?_eq_none
  · constructor
    · rintro ⟨v, hv⟩
      obtain ⟨hlt, -⟩ := List.get?_eq_some.1 hv
      exact hlt
    · intro hlt
      exact ⟨lx.vec.get ⟨sym.get, hlt⟩, List.get?_eq_get hlt⟩

/-- Claim C7: the alphabet bootstrap produces an interner whose reverse
table is exactly the 52 single-character strings a–z then A–Z in that
order, with identifier 0 ↦ "a", 25 ↦ "z", 26 ↦ "A" and 51 ↦ "Z". -/
theorem c7_alphabet :
    init_with_alphabet.vec =
      ["a", "b", "c", "d", "e", "f", "g", "h", "i", "j", "k", "l", "m",
       "n", "o", "p", "q", "r", "s", "t", "u", "v", "w", "x", "y", "z",
       "A", "B", "C", "D", "E", "F", "G", "H", "I", "J", "K", "L", "M",
       "N", "O", "P", "Q", "R", "S", "T", "U", "V", "W", "X", "Y", "Z"] ∧
      init_with_alphabet.lookup (Sym.new 0) = some "a" ∧
      init_with_alphabet.lookup (Sym.new 25) = some "z" ∧
      init_with_alphabet.lookup (Sym.new 26) = some "A" ∧
      init_with_alphabet.lookup (Sym.new 51) = some "Z" := by
  decide

/-- Claim C5: one allocation step.  If the active buffer's remaining
capacity is at least the byte length `L` of the string, the bytes are
appended in place; otherwise the active buffer moves unmodified to the
retired list and a fresh buffer of capacity `nextPow2 (max cap L + 1)`
receives the whole string.  The extra conjuncts certify that this capacity
really is the *next power of two*: a power of two, at least
`max cap L + 1`, and less than twice it. -/
theorem c5_alloc_growth (lx : Lexicon) (s : String)
    (h : lx.buf.utf8ByteSize ≤ lx.bufCap) :
    if s.utf8ByteSize ≤ lx.bufCap - lx.buf.utf8ByteSize then
      (lx.alloc s).1 = { lx with buf := lx.buf ++ s }
    else
      (lx.alloc s).1 =
        { map := lx.map, vec := lx.vec, buf := s,
          bufCap := nextPow2 (max lx.bufCap s.utf8ByteSize + 1),
          all := lx.all ++ [lx.buf] } ∧
        (∃ m, (lx.alloc s).1.bufCap = 2 ^ m) ∧
        max lx.bufCap s.utf8ByteSize + 1 ≤ (lx.alloc s).1.bufCap ∧
        (lx.alloc s).1.bufCap < 2 * (max lx.bufCap s.utf8ByteSize + 1) := by
  by_cases hc : lx.bufCap < lx.buf.utf8ByteSize + s.utf8ByteSize
  · rw [if_neg (by omega)]
    have he : (lx.alloc s).1 =
        { map := lx.map, vec := lx.vec, buf := s,
          bufCap := nextPow2 (max lx.bufCap s.utf8ByteSize + 1),
          all := lx.all ++ [lx.buf] } := by
      rw [alloc_eq, if_pos hc]
      simp [empty_append_str]
    refine ⟨he, ?_, ?_, ?_⟩
    · rw [he]
      exact nextPow2_isPow2 _
    · rw [he]
      exact le_nextPow2 _
    · rw [he]
      exact nextPow2_lt_double _ (Nat.succ_pos _)
  · rw [if_pos (by omega)]
    rw [alloc_eq, if_neg hc]

theorem c5_alloc_growth_witness :
    (Lexicon.default.buf.utf8ByteSize ≤ Lexicon.default.bufCap) ∧
      (if ("hi" : String).utf8ByteSize ≤
          Lexicon.default.bufCap - Lexicon.default.buf.utf8ByteSize then
        (Lexicon.default.alloc "hi").1 = { Lexicon.default with buf := Lexicon.default.buf ++ "hi" }
      else
        (Lexicon.default.alloc "hi").1 =
            { map := Lexicon.default.map, vec := Lexicon.default.vec, buf := "hi",
              bufCap := nextPow2 (max Lexicon.default.bufCap ("hi" : String).utf8ByteSize + 1),
              all := Lexicon.default.all ++ [Lexicon.default.buf] } ∧
          (∃ m, (Lexicon.default.alloc "hi").1.bufCap = 2 ^ m) ∧
          max Lexicon.default.bufCap ("hi" : String).utf8ByteSize + 1 ≤
            (Lexicon.default.alloc "hi").1.bufCap ∧
          (Lexicon.default.alloc "hi").1.bufCap <
            2 * (max Lexicon.default.bufCap ("hi" : String).utf8ByteSize + 1)) :=
  ⟨Nat.le_refl 0, c5_alloc_growth Lexicon.default "hi" (Nat.le_refl 0)⟩

/-! ## Interning fresh strings in bulk -/

theorem reachable_internAll :
    ∀ (ss : List String) {lx : Lexicon}, Reachable lx → Reachable (internAll lx ss).1
  | [], _, h => h
  | s :: rest, lx, h => reachable_internAll rest (Reachable.step lx s h)

theorem internAll_fresh :
    ∀ (ss : List String) (lx : Lexicon), Wf lx → ss.Nodup →
      (∀ s ∈ ss, s ∉ lx.vec) →
      (internAll lx ss).1.vec = lx.vec ++ ss ∧ Wf (internAll lx ss).1 ∧
        (internAll lx ss).2 =
          (List.range ss.length).map (fun i => Sym.new ((lx.vec.length + i) % 2 ^ 32))
  | [], lx, hwf, _, _ => ⟨by simp [internAll], hwf, by simp [internAll]⟩
  | s :: rest, lx, hwf, hnd, hfresh => by
    have hs : s ∉ lx.vec := hfresh s (List.mem_cons_self s rest)
    obtain ⟨hwf1, hvec1, hsym1⟩ := intern_wf s hwf
    rw [if_neg hs] at hvec1
    have hsr : s ∉ rest := (List.nodup_cons.1 hnd).1
    have hfresh1 : ∀ t ∈ rest, t ∉ (lx.intern s).1.vec := by
      intro t ht
      rw [hvec1]
      intro hmem
      rcases List.mem_append.1 hmem with h1 | h2
      · exact hfresh t (List.mem_cons_of_mem s ht) h1
      · rw [List.mem_singleton.1 h2] at ht
        exact hsr ht
    obtain ⟨ihvec, ihwf, ihsym⟩ :=
      internAll_fresh rest (lx.intern s).1 hwf1 (List.nodup_cons.1 hnd).2 hfresh1
    refine ⟨?_, ihwf, ?_⟩
    · show (internAll (lx.intern s).1 rest).1.vec = lx.vec ++ s :: rest
      rw [ihvec, hvec1, List.append_assoc]
      rfl
    · show (lx.intern s).2 :: (internAll (lx.intern s).1 rest).2 = _
      rw [ihsym, hsym1, hvec1, vecIdx_append_self hs]
      rw [List.length_cons, List.range_succ_eq_map, List.map_cons, List.map_map]
      have hlen1 : (lx.vec ++ [s]).length = lx.vec.length + 1 := by simp
      rw [hlen1]
      congr 1
      apply List.map_congr_left
      intro i _
      show Sym.new (((lx.vec.length + 1) + i) % 2 ^ 32) =
        Sym.new ((lx.vec.length + (i + 1)) % 2 ^ 32)
      congr 1
      omega

/-- Claim C1 (amended): for every reachable interner state holding fewer
than `2 ^ 32` distinct strings, `lookup` of the identifier returned by
`intern s` yields exactly `s` (byte-for-byte, `String` content equality),
for every string `s` including the empty and multi-byte ones. -/
theorem c1_round_trip (lx : Lexicon) (s : String) (h : Reachable lx)
    (hlen : lx.vec.length < 2 ^ 32) :
    ((lx.intern s).1).lookup (lx.intern s).2 = some s := by
  have hwf := reachable_wf h
  obtain ⟨-, hvec, hsym⟩ := intern_wf s hwf
  rw [hsym]
  show (lx.intern s).1.vec.get? (vecIdx s (lx.intern s).1.vec % 2 ^ 32) = some s
  have hmem : s ∈ (lx.intern s).1.vec := by
    rw [hvec]
    by_cases hm : s ∈ lx.vec
    · rwa [if_pos hm]
    · rw [if_neg hm]
      exact List.mem_append_right _ (List.mem_singleton.2 rfl)
  have hle : (lx.intern s).1.vec.length ≤ lx.vec.length + 1 := by
    rw [hvec]
    by_cases hm : s ∈ lx.vec
    · rw [if_pos hm]; omega
    · rw [if_neg hm]; simp
  have hidx := vecIdx_lt_length hmem
  rw [Nat.mod_eq_of_lt (by omega)]
  exact get?_vecIdx hmem

theorem c1_round_trip_witness :
    Reachable Lexicon.default ∧ Lexicon.default.vec.length < 2 ^ 32 ∧
      ((Lexicon.default.intern "héllo").1).lookup (Lexicon.default.intern "héllo").2 =
        some "héllo" :=
  ⟨Reachable.base, by decide,
    c1_round_trip Lexicon.default "héllo" Reachable.base (by decide)⟩

/-- Claim C3 (amended): interning at most `2 ^ 32` distinct strings into a
fresh interner yields the identifiers `0, 1, …, N−1` in that order (the
k-th distinct string, 1-indexed, receives identifier `k−1`), and the
reverse table lists the strings in insertion order. -/
theorem c3_sequential (ss : List String) (hnd : ss.Nodup) (hlen : ss.length ≤ 2 ^ 32) :
    (internAll Lexicon.default ss).2 = (List.range ss.length).map (fun i => Sym.new i) ∧
      (internAll Lexicon.default ss).1.vec = ss := by
  obtain ⟨hvec, -, hids⟩ :=
    internAll_fresh ss Lexicon.default wf_default hnd (by intro s _ hc; cases hc)
  constructor
  · rw [hids]
    apply List.map_congr_left
    intro i hi
    have hilt : i < ss.length := List.mem_range.1 hi
    show Sym.new ((Lexicon.default.vec.length + i) % 2 ^ 32) = Sym.new i
    congr 1
    show (0 + i) % 2 ^ 32 = i
    omega
  · rw [hvec]
    rfl

theorem c3_sequential_witness :
    (["x", "y", "z"] : List String).Nodup ∧
      (internAll Lexicon.default ["x", "y", "z"]).2 =
        (List.range (["x", "y", "z"] : List String).length).map (fun i => Sym.new i) ∧
      (internAll Lexicon.default ["x", "y", "z"]).1.vec = ["x", "y", "z"] :=
  ⟨by decide,
    (c3_sequential ["x", "y", "z"] (by decide) (by decide)).1,
    (c3_sequential ["x", "y", "z"] (by decide) (by decide)).2⟩

/-- Claim C4 (amended): in every reachable state holding at most `2 ^ 32`
entries, the dedup map and the reverse table have the same length, and the
reverse table maps `id` to `s` exactly when the dedup map maps `s` to `id`
(so in particular every `intern` call between such states preserves this
invariant). -/
theorem c4_invariant (lx : Lexicon) (h : Reachable lx) (hlen : lx.vec.length ≤ 2 ^ 32) :
    lx.map.length = lx.vec.length ∧
      ∀ (id : Sym) (s : String),
        lx.vec.get? id.val = some s ↔ mapGet lx.map s = some id := by
  have hwf := reachable_wf h
  refine ⟨by rw [hwf.map_eq, tabFrom_length], fun id s => ?_⟩
  rw [mapGet_wf hwf]
  constructor
  · intro hg
    obtain ⟨hlt, -⟩ := List.get?_eq_some.1 hg
    have hmem : s ∈ lx.vec := List.get?_mem hg
    rw [if_pos hmem]
    have h1 := get?_vecIdx hmem
    have hidx : vecIdx s lx.vec = id.val :=
      List.get?_inj (vecIdx_lt_length hmem) hwf.nodup (by rw [h1, hg])
    rw [hidx, Nat.mod_eq_of_lt (by omega)]
    rfl
  · intro hg
    by_cases hmem : s ∈ lx.vec
    · rw [if_pos hmem] at hg
      have hid : id = Sym.new (vecIdx s lx.vec % 2 ^ 32) := (Option.some.inj hg).symm
      have hlt := vecIdx_lt_length hmem
      rw [hid]
      show lx.vec.get? (vecIdx s lx.vec % 2 ^ 32) = some s
      rw [Nat.mod_eq_of_lt (by omega)]
      exact get?_vecIdx hmem
    · rw [if_neg hmem] at hg
      cases hg

theorem c4_invariant_witness :
    ((Lexicon.default.intern "a").1.map.length = (Lexicon.default.intern "a").1.vec.length) ∧
      ((Lexicon.default.intern "a").1.vec.get? 0 = some "a" ↔
        mapGet (Lexicon.default.intern "a").1.map "a" = some (Sym.new 0)) :=
  ⟨(c4_invariant (Lexicon.default.intern "a").1
      (Reachable.step Lexicon.default "a" Reachable.base) (by decide)).1,
    (c4_invariant (Lexicon.default.intern "a").1
      (Reachable.step Lexicon.default "a" Reachable.base) (by decide)).2 (Sym.new 0) "a"⟩

/-- Claim C8 (amended): from any reachable state holding fewer than
`2 ^ 32` distinct strings, interning two different strings yields two
different identifiers.  (Even when the second intern wraps the counter to
`0`, the identifiers differ: a wrap requires the table to have grown to
`2 ^ 32` entries, so the first identifier is `2 ^ 32 - 1 ≠ 0`.) -/
theorem c8_distinct (lx : Lexicon) (s1 s2 : String) (h : Reachable lx)
    (hlen : lx.vec.length < 2 ^ 32) (hne : s1 ≠ s2) :
    ((lx.intern s1).1.intern s2).2 ≠ (lx.intern s1).2 := by
  have hwf := reachable_wf h
  obtain ⟨hwf1, hvec1, hsym1⟩ := intern_wf s1 hwf
  obtain ⟨-, hvec2, hsym2⟩ := intern_wf s2 hwf1
  have hm1 : s1 ∈ (lx.intern s1).1.vec := by
    rw [hvec1]
    by_cases hm : s1 ∈ lx.vec
    · rwa [if_pos hm]
    · rw [if_neg hm]
      exact List.mem_append_right _ (List.mem_singleton.2 rfl)
  have hl1 : (lx.intern s1).1.vec.length ≤ lx.vec.length + 1 := by
    rw [hvec1]
    by_cases hm : s1 ∈ lx.vec
    · rw [if_pos hm]; omega
    · rw [if_neg hm]; simp
  have hi1 := vecIdx_lt_length hm1
  intro heq
  rw [hsym1, hsym2] at heq
  by_cases hm2 : s2 ∈ (lx.intern s1).1.vec
  · -- second call hits: both identifiers are positions in the same
    -- duplicate-free table and both are below the wrap point
    rw [if_pos hm2] at hvec2
    rw [hvec2] at heq
    have hi2 := vecIdx_lt_length hm2
    have hval : vecIdx s2 (lx.intern s1).1.vec % 2 ^ 32 =
        vecIdx s1 (lx.intern s1).1.vec % 2 ^ 32 := congrArg Sym.val heq
    have e2 : vecIdx s2 (lx.intern s1).1.vec % 2 ^ 32 =
        vecIdx s2 (lx.intern s1).1.vec := Nat.mod_eq_of_lt (by omega)
    have e1 : vecIdx s1 (lx.intern s1).1.vec % 2 ^ 32 =
        vecIdx s1 (lx.intern s1).1.vec := Nat.mod_eq_of_lt (by omega)
    rw [e2, e1] at hval
    have g2 := get?_vecIdx hm2
    rw [hval, get?_vecIdx hm1] at g2
    exact hne (Option.some.inj g2)
  · -- second call misses: its identifier is the (possibly wrapped) table
    -- length, which never coincides with the first identifier
    rw [if_neg hm2] at hvec2
    rw [hvec2, vecIdx_append_self hm2] at heq
    have hval : (lx.intern s1).1.vec.length % 2 ^ 32 =
        vecIdx s1 (lx.intern s1).1.vec % 2 ^ 32 := congrArg Sym.val heq
    by_cases hmem1 : s1 ∈ lx.vec
    · -- first call hit: its identifier is an index strictly below the
      -- unwrapped table length
      rw [if_pos hmem1] at hvec1
      rw [hvec1] at hval hi1
      rw [Nat.mod_eq_of_lt hlen] at hval
      have e1 : vecIdx s1 lx.vec % 2 ^ 32 = vecIdx s1 lx.vec :=
        Nat.mod_eq_of_lt (by omega)
      rw [e1] at hval
      omega
    · -- first call missed too: identifiers are len and (len + 1) % 2 ^ 32,
      -- distinct whether or not the second one wraps to 0
      rw [if_neg hmem1] at hvec1
      rw [hvec1, vecIdx_append_self hmem1] at hval
      have hl : (lx.vec ++ [s1]).length = lx.vec.length + 1 := by simp
      rw [hl] at hval
      omega

theorem c8_distinct_witness :
    Lexicon.default.vec.length < 2 ^ 32 ∧ ("x" : String) ≠ "y" ∧
      ((Lexicon.default.intern "x").1.intern "y").2 ≠ (Lexicon.default.intern "x").2 :=
  ⟨by decide, by decide,
    c8_distinct Lexicon.default "x" "y" Reachable.base (by decide) (by decide)⟩

/-! ## Identifier truncation at `2 ^ 32` distinct strings

`Sym::new(self.map.len() as u32)` silently truncates: once `2 ^ 32`
distinct strings have been interned, the next fresh string is assigned
identifier `0` again.  The following (purely symbolic) state exhibits
this. -/

/-- The string of `n` copies of `'a'`. -/
def aRun (n : Nat) : String := String.mk (List.replicate n 'a')

/-- `2 ^ 32` pairwise-distinct strings. -/
def bigList : List String := (List.range (2 ^ 32)).map aRun

theorem bigList_eq : bigList = (List.range (2 ^ 32)).map aRun := by
  delta bigList
  exact Eq.refl _

attribute [irreducible] bigList

/-- A string distinct from every element of `bigList`. -/
def sBig : String := aRun (2 ^ 32)

/-- The state component of `internAll`. -/
def internAllSt (lx : Lexicon) (ss : List String) : Lexicon := (internAll lx ss).1

theorem internAllSt_eq (lx : Lexicon) (ss : List String) :
    internAllSt lx ss = (internAll lx ss).1 := rfl

/-- The state component of `intern`. -/
def internSt (lx : Lexicon) (s : String) : Lexicon := (lx.intern s).1

theorem internSt_eq (lx : Lexicon) (s : String) : internSt lx s = (lx.intern s).1 := rfl

/-- The state after interning all of `bigList` into a fresh interner. -/
def lxBig : Lexicon := internAllSt Lexicon.default bigList

theorem lxBig_eq : lxBig = (internAll Lexicon.default bigList).1 := by
  delta lxBig
  exact internAllSt_eq Lexicon.default bigList

attribute [irreducible] lxBig

/-- The state after additionally interning `sBig`. -/
def lxBig2 : Lexicon := internSt lxBig sBig

theorem lxBig2_eq : lxBig2 = (lxBig.intern sBig).1 := by
  delta lxBig2
  exact internSt_eq lxBig sBig

attribute [irreducible] lxBig2

theorem aRun_length (n : Nat) : (aRun n).length = n := by
  simp [aRun, String.length]

theorem aRun_inj : Function.Injective aRun := by
  intro m n h
  have h2 := congrArg String.length h
  rwa [aRun_length, aRun_length] at h2

theorem bigList_nodup : bigList.Nodup := by
  rw [bigList_eq]
  exact (List.nodup_range _).map aRun_inj

theorem sBig_not_mem : sBig ∉ bigList := by
  rw [bigList_eq]
  intro h
  obtain ⟨i, hi, he⟩ := List.mem_map.1 h
  have h2 : i = 2 ^ 32 := aRun_inj he
  rw [h2] at hi
  exact absurd (List.mem_range.1 hi) (lt_irrefl _)

theorem bigList_length : bigList.length = 2 ^ 32 := by
  rw [bigList_eq]
  simp

theorem lxBig_spec : lxBig.vec = bigList ∧ Wf lxBig := by
  obtain ⟨hvec, hwf, -⟩ := internAll_fresh bigList Lexicon.default wf_default
    bigList_nodup (by intro s _ hc; cases hc)
  have h0 : Lexicon.default.vec ++ bigList = bigList := List.nil_append bigList
  rw [h0] at hvec
  rw [lxBig_eq]
  exact ⟨hvec, hwf⟩

theorem reachable_lxBig : Reachable lxBig := by
  rw [lxBig_eq]
  exact reachable_internAll bigList Reachable.base

theorem bigList_get?_zero : bigList.get? 0 = some (aRun 0) := by
  rw [bigList_eq, List.get?_map, List.get?_range (by norm_num : (0 : Nat) < 2 ^ 32)]
  rfl

theorem aRun_zero_ne_sBig : aRun 0 ≠ sBig := by
  intro h
  have h2 := congrArg String.length h
  rw [aRun_length, show sBig = aRun (2 ^ 32) from rfl, aRun_length] at h2
  exact absurd h2 (by norm_num)

/-- Interning `sBig` on top of `lxBig` wraps the identifier to `0`. -/
theorem intern_lxBig_sBig :
    (lxBig.intern sBig).2 = Sym.new 0 ∧
      (lxBig.intern sBig).1.vec = bigList ++ [sBig] := by
  obtain ⟨hvec0, hwf⟩ := lxBig_spec
  obtain ⟨-, hvec, hsym⟩ := intern_wf sBig hwf
  rw [hvec0, if_neg sBig_not_mem] at hvec
  refine ⟨?_, hvec⟩
  rw [hsym, hvec, vecIdx_append_self sBig_not_mem, bigList_length, Nat.mod_self]

/-- Claim C1, as stated over every reachable state, is false: in the
reachable state `lxBig` (which holds `2 ^ 32` distinct strings), interning
the fresh string `sBig` returns an identifier truncated to `0`, and
looking that identifier up yields the very first interned string instead
of `sBig`. -/
theorem c1_round_trip_cex :
    Reachable lxBig ∧
      ((lxBig.intern sBig).1).lookup (lxBig.intern sBig).2 = some (aRun 0) ∧
      some (aRun 0) ≠ some sBig := by
  obtain ⟨hsym, hvec⟩ := intern_lxBig_sBig
  refine ⟨reachable_lxBig, ?_, ?_⟩
  · rw [hsym]
    show (lxBig.intern sBig).1.vec.get? 0 = some (aRun 0)
    rw [hvec, List.get?_append (by rw [bigList_length]; norm_num)]
    exact bigList_get?_zero
  · intro h
    exact aRun_zero_ne_sBig (Option.some.inj h)

/-- Claim C3, as stated for arbitrary numbers of distinct strings, is
false: interning the `2 ^ 32 + 1` distinct strings `bigList ++ [sBig]`
does not produce the identifiers `0 .. 2 ^ 32` (the last one wraps). -/
theorem c3_sequential_cex :
    (internAll Lexicon.default (bigList ++ [sBig])).2 ≠
      (List.range (bigList ++ [sBig]).length).map (fun i => Sym.new i) := by
  have hnd : (bigList ++ [sBig]).Nodup := by
    rw [List.nodup_append]
    refine ⟨bigList_nodup, List.nodup_singleton _, ?_⟩
    intro x hx hx'
    rw [List.mem_singleton.1 hx'] at hx
    exact sBig_not_mem hx
  obtain ⟨-, -, hids⟩ := internAll_fresh (bigList ++ [sBig]) Lexicon.default wf_default
    hnd (by intro s _ hc; cases hc)
  intro h
  rw [hids] at h
  have hlt : (2 ^ 32 : Nat) < (bigList ++ [sBig]).length := by
    rw [List.length_append, bigList_length]
    norm_num
  have h2 := congrArg (fun l => l.get? (2 ^ 32)) h
  simp only [List.get?_map, List.get?_range hlt, Option.map_some'] at h2
  have h3 : (Lexicon.default.vec.length + 2 ^ 32) % 2 ^ 32 = 2 ^ 32 :=
    congrArg Sym.val (Option.some.inj h2)
  omega

/-- Claim C4, as stated over every reachable state, is false: in the
reachable state `lxBig2` the dedup map sends `sBig` to identifier `0`,
but entry `0` of the reverse table is the first interned string, not
`sBig` — the two tables are no longer inverse to each other. -/
theorem c4_invariant_cex :
    Reachable lxBig2 ∧
      ¬ ∀ (id : Sym) (s : String),
          lxBig2.vec.get? id.val = some s ↔ mapGet lxBig2.map s = some id := by
  obtain ⟨hsym, hvec⟩ := intern_lxBig_sBig
  refine ⟨by rw [lxBig2_eq]; exact Reachable.step lxBig sBig reachable_lxBig,
    fun hall => ?_⟩
  have hwf2 : Wf lxBig2 := by
    rw [lxBig2_eq]
    exact (intern_wf sBig lxBig_spec.2).1
  have hvec2 : lxBig2.vec = bigList ++ [sBig] := by
    rw [lxBig2_eq]
    exact hvec
  have hmem : sBig ∈ lxBig2.vec := by
    rw [hvec2]
    exact List.mem_append_right _ (List.mem_singleton.2 rfl)
  have hmap : mapGet lxBig2.map sBig = some (Sym.new 0) := by
    rw [mapGet_wf hwf2, if_pos hmem, hvec2, vecIdx_append_self sBig_not_mem,
      bigList_length, Nat.mod_self]
  have hget : lxBig2.vec.get? 0 = some sBig := (hall (Sym.new 0) sBig).2 hmap
  have hget0 : lxBig2.vec.get? 0 = some (aRun 0) := by
    rw [hvec2, List.get?_append (by rw [bigList_length]; norm_num)]
    exact bigList_get?_zero
  rw [hget0] at hget
  exact aRun_zero_ne_sBig (Option.some.inj hget)

theorem aRun_zero_mem : aRun 0 ∈ bigList := by
  rw [bigList_eq]
  exact List.mem_map.2 ⟨0, List.mem_range.2 (by norm_num), rfl⟩

theorem vecIdx_aRun_zero : vecIdx (aRun 0) bigList = 0 := by
  have hmem : aRun 0 ∈ bigList := aRun_zero_mem
  have h1 := get?_vecIdx hmem
  exact List.get?_inj (vecIdx_lt_length hmem) bigList_nodup
    (by rw [h1, bigList_get?_zero])

/-- Claim C8, as stated over every reachable state, is false: from the
reachable state `lxBig`, the distinct strings `aRun 0` and `sBig` are
both assigned identifier `0` (the second by truncation). -/
theorem c8_distinct_cex :
    Reachable lxBig ∧ aRun 0 ≠ sBig ∧
      ((lxBig.intern (aRun 0)).1.intern sBig).2 = (lxBig.intern (aRun 0)).2 := by
  obtain ⟨hvec0, hwf⟩ := lxBig_spec
  have hmem : aRun 0 ∈ bigList := aRun_zero_mem
  have hhit : mapGet lxBig.map (aRun 0) = some (Sym.new 0) := by
    rw [mapGet_wf hwf, hvec0, if_pos hmem, vecIdx_aRun_zero, Nat.zero_mod]
  refine ⟨reachable_lxBig, aRun_zero_ne_sBig, ?_⟩
  rw [intern_hit hhit]
  show (lxBig.intern sBig).2 = Sym.new 0
  exact intern_lxBig_sBig.1


end LexiconModel
